import Mathlib

/-!
Shallow embedding of the scoring, length-governance, parsing and formatting
logic of `seeavision_prompt_recode_app.py`.  Python strings are modelled as
`List Char`; Python ints as `ℤ`/`ℕ`; Python floats as `ℚ` (the float literals
0.6, 1.1, 1.5 are exact decimals, and `int(·)` of the nonnegative quantities
involved agrees with the rational floor); `re` word matching is modelled
character-by-character with explicit `\b` boundaries (ASCII approximation of
`\w`, which covers every keyword in the source's lexicons).
-/

/-- Convert a string literal to the `List Char` representation used throughout. -/
def chars (s : String) : List Char := s.data

/-- Python `str.isspace` for the ASCII whitespace characters (the ones the
source's inputs and regexes use). -/
def pyIsSpace (c : Char) : Bool :=
  c = ' ' || c = '\t' || c = '\n' || c = '\r' || c = '\x0b' || c = '\x0c'

/-- Python `str.lower()`, character-wise (ASCII). -/
def lowerL (t : List Char) : List Char := t.map Char.toLower

/-- Python `str.lstrip()`. -/
def pyLStrip (l : List Char) : List Char := l.dropWhile pyIsSpace

/-- Python `str.rstrip()`. -/
def pyRStrip (l : List Char) : List Char := (l.reverse.dropWhile pyIsSpace).reverse

/-- Python `str.strip()`. -/
def pyStrip (l : List Char) : List Char := pyRStrip (pyLStrip l)

/-- A regex `\w` character (ASCII approximation: letters, digits, underscore). -/
def isWordChar (c : Char) : Bool := c.isAlpha || c.isDigit || c = '_'

/-- `w` occurs in `t` starting at index `i`. -/
def matchesAt (w t : List Char) (i : Nat) : Bool :=
  decide ((t.drop i).take w.length = w)

/-- `w` occurs in `t` at index `i` with regex `\b` word boundaries on both
sides (the character before index `i`, if any, and the character after the
match, if any, are non-word characters). -/
def wordAt (w t : List Char) (i : Nat) : Bool :=
  matchesAt w t i
    && (decide (i = 0) || !(isWordChar (t.getD (i - 1) ' ')))
    && !(isWordChar (t.getD (i + w.length) ' '))

/-- Some word of `ws` has a whole-word (`\b`-delimited) occurrence in `t`:
the model of `re.search(r"\b(w1|w2|...)\b", t) is not None`. -/
def hasCue (ws : List (List Char)) (t : List Char) : Bool :=
  (List.range t.length).any (fun i => ws.any (fun w => wordAt w t i))

/-- A single word has a whole-word occurrence in `t`. -/
def wordPresent (w t : List Char) : Bool :=
  (List.range t.length).any (fun i => wordAt w t i)

/-- Number of `\b`-delimited occurrences of words of `ws` in `t`: the model of
`len(re.findall(r"\b(w1|w2|...)\b", t))`.  Counting match start positions
agrees with `findall`'s non-overlapping scan because boundary-delimited
matches of the source's lexicons cannot overlap. -/
def countWordHits (ws : List (List Char)) (t : List Char) : Nat :=
  (List.range t.length).countP (fun i => ws.any (fun w => wordAt w t i))

/-- Number of maximal runs of `!`/`?` of length at least two: the model of
`len(re.findall(r"[!?]{2,}", t))` (greedy matches consume maximal runs). -/
def countRunBangQ (t : List Char) : Nat :=
  (List.range t.length).countP (fun i =>
    (t.getD i ' ' = '!' || t.getD i ' ' = '?')
      && (decide (i = 0) || !(t.getD (i - 1) ' ' = '!' || t.getD (i - 1) ' ' = '?'))
      && (t.getD (i + 1) ' ' = '!' || t.getD (i + 1) ' ' = '?'))

/-- First alternation group of `TOXIC_PATTERNS`. -/
def toxicWords1 : List (List Char) :=
  [chars "hate", chars "stupid", chars "idiot", chars "loser", chars "trash",
   chars "dumb", chars "evil", chars "fraud", chars "liar", chars "shut up",
   chars "disgusting"]

/-- Second alternation group of `TOXIC_PATTERNS`. -/
def toxicWords2 : List (List Char) :=
  [chars "kill", chars "shoot", chars "stab", chars "beat", chars "assault",
   chars "violence", chars "murder"]

/-- Third alternation group of `TOXIC_PATTERNS` (`drugs?` expands to the two
spellings `drug` and `drugs`). -/
def toxicWords3 : List (List Char) :=
  [chars "drug", chars "drugs", chars "lean", chars "perc", chars "oxy",
   chars "xan", chars "coke", chars "heroin", chars "meth"]

/-- Fourth alternation group of `TOXIC_PATTERNS`. -/
def toxicWords4 : List (List Char) :=
  [chars "whore", chars "slut", chars "bitch"]

/-- Fifth alternation group of `TOXIC_PATTERNS`. -/
def toxicWords5 : List (List Char) :=
  [chars "lazy", chars "useless", chars "worthless", chars "weak"]

/-- First alternation group of `DISRUPT_PATTERNS`. -/
def disruptWords1 : List (List Char) :=
  [chars "vs", chars "versus", chars "against", chars "beef", chars "war",
   chars "takedown", chars "clapback", chars "exposed", chars "cancel",
   chars "boycott"]

/-- Second alternation group of `DISRUPT_PATTERNS`. -/
def disruptWords2 : List (List Char) :=
  [chars "owe", chars "fake", chars "steal", chars "thief", chars "cheat",
   chars "scam"]

/-- The record returned by `analyze_text`. -/
structure ScoreRecord where
  toxicity : Int
  disruption : Int
  positivity : Int
  length : Nat
deriving DecidableEq, Repr

/-- The source's `tox_hits` local: summed whole-word hit counts of the five
toxic patterns over the lower-cased text. -/
def toxHits (t : List Char) : Nat :=
  countWordHits toxicWords1 t + countWordHits toxicWords2 t +
  countWordHits toxicWords3 t + countWordHits toxicWords4 t +
  countWordHits toxicWords5 t

/-- The source's `dis_hits` local: summed hit counts of the two disrupt word
patterns plus the `[!?]{2,}` run count, over the lower-cased text. -/
def disHits (t : List Char) : Nat :=
  countWordHits disruptWords1 t + countWordHits disruptWords2 t + countRunBangQ t

/-- The source's `letters` local: number of alphabetic characters (`c.isalpha()`). -/
def lettersCount (text : List Char) : Nat := (text.filter (fun c => c.isAlpha)).length

/-- The numerator of the source's `caps_ratio`: number of uppercase characters. -/
def capsCount (text : List Char) : Nat := (text.filter (fun c => c.isUpper)).length

/-- The source's `analyze_text`: lexical hit counts, exclamation count,
capitalization ratio (guarded against division by zero), and the three
clamped scores.  `int(·)` on the nonnegative quantities equals the floor. -/
def analyze_text (text : List Char) : ScoreRecord :=
  let t := lowerL text
  let tox_hits : Nat := toxHits t
  let dis_hits : Nat := disHits t
  let exclam : Nat := t.count '!'
  let letters : Nat := lettersCount text
  let caps : Nat := capsCount text
  let caps_ratio : ℚ := if letters = 0 then 0 else (caps : ℚ) / (letters : ℚ)
  let toxicity : Int :=
    ⌊min (100 : ℚ) ((tox_hits : ℚ) * 10 + (exclam : ℚ) * 2 + caps_ratio * 15)⌋
  let disruption : Int :=
    ⌊min (100 : ℚ) ((dis_hits : ℚ) * 10 + caps_ratio * 10)⌋
  let positivity : Int := max 0 (100 - toxicity)
  ⟨toxicity, disruption, positivity, text.length⟩

/-- Floor of a rational clamped from above by the integer 100 commutes with
the clamp. -/
theorem floor_min_100 (q : ℚ) : ⌊min (100 : ℚ) q⌋ = min 100 ⌊q⌋ := by
  rcases le_total (100 : ℚ) q with h | h
  · rw [min_eq_left h]
    have h1 : (100 : ℤ) ≤ ⌊q⌋ := Int.le_floor.mpr (by exact_mod_cast h)
    rw [min_eq_left h1]
    norm_num
  · rw [min_eq_right h]
    have h1 : ⌊q⌋ ≤ 100 := by
      have h2 := Int.floor_le_floor h
      simpa using h2
    rw [min_eq_right h1]

/-- The source's `caps_ratio` guard is redundant over `ℚ` where division by
zero is zero. -/
theorem caps_ratio_if_eq (letters caps : Nat) :
    (if letters = 0 then (0 : ℚ) else (caps : ℚ) / (letters : ℚ))
      = (caps : ℚ) / (letters : ℚ) := by
  split
  · rename_i h
    rw [h]
    norm_num
  · rfl

/-- The toxicity-shaped clamped rational equals its `ℕ` floor-division value. -/
theorem floor_clamp15 (A c d : ℕ) :
    ⌊min (100 : ℚ) ((A : ℚ) + ((c : ℚ) / (d : ℚ)) * 15)⌋
      = ((min 100 (A + 15 * c / d) : ℕ) : ℤ) := by
  have h1 : ((c : ℚ) / (d : ℚ)) * 15 = ((15 * c : ℕ) : ℚ) / ((d : ℕ) : ℚ) := by
    push_cast; ring
  have h2 : ⌊(A : ℚ) + ((15 * c : ℕ) : ℚ) / ((d : ℕ) : ℚ)⌋
      = (A : ℤ) + ((15 * c / d : ℕ) : ℤ) := by
    rw [show ((A : ℚ)) = (((A : ℤ)) : ℚ) by push_cast; ring]
    rw [Int.floor_int_add, Rat.floor_natCast_div_natCast]
    push_cast; ring
  rw [h1, floor_min_100, h2]
  push_cast
  omega

/-- The disruption-shaped clamped rational equals its `ℕ` floor-division value. -/
theorem floor_clamp10 (A c d : ℕ) :
    ⌊min (100 : ℚ) ((A : ℚ) + ((c : ℚ) / (d : ℚ)) * 10)⌋
      = ((min 100 (A + 10 * c / d) : ℕ) : ℤ) := by
  have h1 : ((c : ℚ) / (d : ℚ)) * 10 = ((10 * c : ℕ) : ℚ) / ((d : ℕ) : ℚ) := by
    push_cast; ring
  have h2 : ⌊(A : ℚ) + ((10 * c : ℕ) : ℚ) / ((d : ℕ) : ℚ)⌋
      = (A : ℤ) + ((10 * c / d : ℕ) : ℤ) := by
    rw [show ((A : ℚ)) = (((A : ℤ)) : ℚ) by push_cast; ring]
    rw [Int.floor_int_add, Rat.floor_natCast_div_natCast]
    push_cast; ring
  rw [h1, floor_min_100, h2]
  push_cast
  omega

/-- Executable characterization of the toxicity score. -/
theorem analyze_toxicity_eq (text : List Char) :
    (analyze_text text).toxicity =
      ((min 100 (toxHits (lowerL text) * 10 + (lowerL text).count '!' * 2 +
        15 * capsCount text / lettersCount text) : ℕ) : ℤ) := by
  simp only [analyze_text]
  rw [caps_ratio_if_eq]
  rw [show (toxHits (lowerL text) : ℚ) * 10 + ((lowerL text).count '!' : ℚ) * 2
      = ((toxHits (lowerL text) * 10 + (lowerL text).count '!' * 2 : ℕ) : ℚ) by push_cast; ring]
  rw [floor_clamp15]

/-- Executable characterization of the disruption score. -/
theorem analyze_disruption_eq (text : List Char) :
    (analyze_text text).disruption =
      ((min 100 (disHits (lowerL text) * 10 +
        10 * capsCount text / lettersCount text) : ℕ) : ℤ) := by
  simp only [analyze_text]
  rw [caps_ratio_if_eq]
  rw [show (disHits (lowerL text) : ℚ) * 10 = ((disHits (lowerL text) * 10 : ℕ) : ℚ) by
    push_cast; ring]
  rw [floor_clamp10]

/-- Executable characterization of the positivity score. -/
theorem analyze_positivity_eq (text : List Char) :
    (analyze_text text).positivity =
      ((100 - min 100 (toxHits (lowerL text) * 10 + (lowerL text).count '!' * 2 +
        15 * capsCount text / lettersCount text) : ℕ) : ℤ) := by
  have h1 := analyze_toxicity_eq text
  simp only [analyze_text] at h1 ⊢
  rw [h1]
  omega


/-- The shorten cue words of `generate_recodes`: `\b(short|shorten|condense)\b`. -/
def shortenCueWords : List (List Char) := [chars "short", chars "shorten", chars "condense"]

/-- The expand cue words of `generate_recodes`: `\b(long|expand|detailed|thread)\b`. -/
def expandCueWords : List (List Char) :=
  [chars "long", chars "expand", chars "detailed", chars "thread"]

/-- The `target_len` computation of `generate_recodes` (lines 186-192): default
the input length; an `if` on the shorten cue, then an `elif` on the expand cue.
`int(·)` of the nonnegative products equals the rational floor. -/
def targetLen (original : List Char) : Nat :=
  let input_len := original.length
  let low := lowerL original
  if hasCue shortenCueWords low then
    max 200 (Int.toNat ⌊(input_len : ℚ) * 0.6⌋)
  else if hasCue expandCueWords low then
    Int.toNat ⌊(input_len : ℚ) * 1.5⌋
  else input_len

/-- The `hard_max` ceiling of `generate_recodes` (line 240):
`int(target_len * (1.5 if expand-cue else 1.1)) + 40`. -/
def hardMax (original : List Char) : Nat :=
  let low := lowerL original
  Int.toNat ⌊(targetLen original : ℚ) * (if hasCue expandCueWords low then 1.5 else 1.1)⌋ + 40

/-- The per-variant length enforcement of `generate_recodes` (lines 241-243):
text longer than the ceiling is cut at the ceiling and right-stripped. -/
def enforceText (hard_max : Nat) (text : List Char) : List Char :=
  if hard_max < text.length then pyRStrip (text.take hard_max) else text

/-- One generated alternative: the `{"style":…, "emoji":…, "text":…}` dict. -/
structure Variant where
  style : List Char
  emoji : List Char
  text : List Char
deriving DecidableEq, Repr

/-- The tail of `generate_recodes` (lines 239-244): cap the variant list at
`max(n_variants, 4)` and then enforce the length ceiling on each survivor. -/
def postVariants (original : List Char) (n_variants : Nat) (variants : List Variant) :
    List Variant :=
  let capped := variants.take (max n_variants 4)
  capped.map (fun v => { v with text := enforceText (hardMax original) v.text })

/-- A nonneg rational times an exact decimal: floor as `ℕ` division (`q * 0.6`). -/
theorem floor_mul_point6 (n : Nat) : Int.toNat ⌊(n : ℚ) * 0.6⌋ = 6 * n / 10 := by
  have h1 : (n : ℚ) * 0.6 = ((6 * n : ℕ) : ℚ) / ((10 : ℕ) : ℚ) := by
    push_cast; ring_nf
  rw [h1, Rat.floor_natCast_div_natCast]
  omega

/-- A nonneg rational times an exact decimal: floor as `ℕ` division (`q * 1.5`). -/
theorem floor_mul_1point5 (n : Nat) : Int.toNat ⌊(n : ℚ) * 1.5⌋ = 3 * n / 2 := by
  have h1 : (n : ℚ) * 1.5 = ((3 * n : ℕ) : ℚ) / ((2 : ℕ) : ℚ) := by
    push_cast; ring_nf
  rw [h1, Rat.floor_natCast_div_natCast]
  omega

/-- A nonneg rational times an exact decimal: floor as `ℕ` division (`q * 1.1`). -/
theorem floor_mul_1point1 (n : Nat) : Int.toNat ⌊(n : ℚ) * 1.1⌋ = 11 * n / 10 := by
  have h1 : (n : ℚ) * 1.1 = ((11 * n : ℕ) : ℚ) / ((10 : ℕ) : ℚ) := by
    push_cast; ring_nf
  rw [h1, Rat.floor_natCast_div_natCast]
  omega

/-- Executable characterization of `targetLen` by `ℕ` floor division. -/
theorem targetLen_eq (original : List Char) :
    targetLen original =
      (if hasCue shortenCueWords (lowerL original) then
        max 200 (6 * original.length / 10)
      else if hasCue expandCueWords (lowerL original) then
        3 * original.length / 2
      else original.length) := by
  simp only [targetLen, floor_mul_point6, floor_mul_1point5]

/-- Executable characterization of `hardMax` by `ℕ` floor division. -/
theorem hardMax_eq (original : List Char) :
    hardMax original =
      (if hasCue expandCueWords (lowerL original) then 3 * targetLen original / 2
       else 11 * targetLen original / 10) + 40 := by
  simp only [hardMax]
  split
  · rw [floor_mul_1point5]
  · rw [floor_mul_1point1]


/-- Index of the last `'\n'` in a list, when there is one. -/
def lastNLIdx : List Char → Option Nat
  | [] => none
  | c :: rest =>
    match lastNLIdx rest with
    | some j => some (j + 1)
    | none => if c = '\n' then some 0 else none

/-- Remainder after a greedy `\n\s*\n` separator match that starts with a
`'\n'` just before `rest`: the separator additionally consumes the whitespace
run of `rest` up to and including its last `'\n'`, provided there is one. -/
def sepTail (rest : List Char) : Option (List Char) :=
  match lastNLIdx (rest.takeWhile pyIsSpace) with
  | some j => some (rest.drop (j + 1))
  | none => none

/-- Fuel-based scan for `re.split(r"\n\s*\n", content)`: blocks are the
segments between leftmost greedy separator matches.  The fuel (always at
least the remaining length) makes the recursion structural. -/
def splitBlocksAux : Nat → List Char → List Char → List (List Char)
  | 0, acc, l => [acc.reverse ++ l]
  | _ + 1, acc, [] => [acc.reverse]
  | fuel + 1, acc, c :: rest =>
    if c = '\n' then
      match sepTail rest with
      | some tail => acc.reverse :: splitBlocksAux fuel [] tail
      | none => splitBlocksAux fuel (c :: acc) rest
    else splitBlocksAux fuel (c :: acc) rest

/-- `re.split(r"\n\s*\n", content)`. -/
def splitBlocks (content : List Char) : List (List Char) :=
  splitBlocksAux content.length [] content

/-- First index `i` with `1 ≤ i ≤ |s| - 2` whose character is `':'`: the
colon selected by `re.match(r"\s*(.+?):\s*(.+)", s, re.S)` on a stripped
nonempty `s` (the lazy group needs one character before the colon, and the
rest of the pattern needs one character after it). -/
def colonIdx (s : List Char) : Option Nat :=
  (List.range s.length).find? (fun i =>
    decide (1 ≤ i) && decide (i + 1 < s.length) && (s.getD i ' ' == ':'))

/-- The style/text extraction the fallback parser applies to one stripped
block: the groups of `re.match(r"\s*(.+?):\s*(.+)", b.strip(), re.S)`,
stripped, when the match succeeds; `("Recode", b.strip())` otherwise. -/
def parseBlockStyleText (s : List Char) : List Char × List Char :=
  match colonIdx s with
  | some p => (pyStrip (s.take p), pyStrip (s.drop (p + 1)))
  | none => (chars "Recode", s)

/-- The `EMOJI_MAP` dict. -/
def EMOJI_MAP : List (List Char × List Char) :=
  [(chars "Serious & Balanced", chars "⚖️"),
   (chars "Collaborative Debate", chars "🤝"),
   (chars "Comedic Spin", chars "😂"),
   (chars "Uplifting Alternative", chars "🌟"),
   (chars "Educational Insight", chars "📘"),
   (chars "Thought-Provoking", chars "🤔")]

/-- `EMOJI_MAP.get(style, "✨")`. -/
def emojiLookup (style : List Char) : List Char :=
  match EMOJI_MAP.find? (fun p => p.1 == style) with
  | some p => p.2
  | none => chars "✨"

/-- The fallback branch of `generate_recodes`'s response parsing (lines
229-237): split the raw content on blank-line separators, skip blocks that
strip to nothing, and turn every other block into one variant whose style and
text come from the colon-split of the stripped block. -/
def fallbackParse (content : List Char) : List Variant :=
  (splitBlocks content).filterMap (fun b =>
    if pyStrip b = [] then none
    else
      let st := parseBlockStyleText (pyStrip b)
      some ⟨st.1, emojiLookup st.1, st.2⟩)


/-- Python `str.title()`: uppercase a letter that follows a non-letter,
lowercase a letter that follows a letter (ASCII). -/
def pyTitleAux : Bool → List Char → List Char
  | _, [] => []
  | prevAlpha, c :: rest =>
    if c.isAlpha then
      (if prevAlpha then c.toLower else c.toUpper) :: pyTitleAux true rest
    else c :: pyTitleAux false rest

/-- Python `str.title()`. -/
def pyTitle (l : List Char) : List Char := pyTitleAux false l

/-- The source's `_to_case`: the four case transforms keyed by the preset's
mode string (`mixed` falls through to the identity). -/
def toCase (text : List Char) (mode : String) : List Char :=
  if mode = "upper" then text.map Char.toUpper
  else if mode = "title" then pyTitle text
  else if mode = "sentence" then
    match pyStrip text with
    | [] => pyStrip text
    | c :: rest => c.toUpper :: rest
  else text

/-- A punctuation character of `_smart_lines`' split class `[.,;:!?]`. -/
def isPunctSmart (c : Char) : Bool :=
  c = '.' || c = ',' || c = ';' || c = ':' || c = '!' || c = '?'

/-- Whether a list starts with a whitespace character. -/
def headIsSpace : List Char → Bool
  | [] => false
  | c :: _ => pyIsSpace c

/-- Fuel-based scan for `re.split(r"[.,;:!?]\s+|\s{2,}", core)`: a separator
is a punctuation character followed by a greedy whitespace run, or a greedy
whitespace run of length at least two. -/
def splitSmartAux : Nat → List Char → List Char → List (List Char)
  | 0, acc, l => [acc.reverse ++ l]
  | _ + 1, acc, [] => [acc.reverse]
  | fuel + 1, acc, c :: rest =>
    if (isPunctSmart c && headIsSpace rest) || (pyIsSpace c && headIsSpace rest) then
      acc.reverse :: splitSmartAux fuel [] (rest.dropWhile pyIsSpace)
    else splitSmartAux fuel (c :: acc) rest

/-- `re.split(r"[.,;:!?]\s+|\s{2,}", core)`. -/
def splitSmart (core : List Char) : List (List Char) :=
  splitSmartAux core.length [] core

/-- Python `str.split()` with no argument: the maximal non-whitespace runs. -/
def pySplitWSAux : List Char → List Char → List (List Char)
  | [], acc => if acc.isEmpty then [] else [acc.reverse]
  | c :: rest, acc =>
    if pyIsSpace c then
      if acc.isEmpty then pySplitWSAux rest [] else acc.reverse :: pySplitWSAux rest []
    else pySplitWSAux rest (c :: acc)

/-- Python `str.split()` with no argument. -/
def pySplitWS (l : List Char) : List (List Char) := pySplitWSAux l []

/-- `sep.join(xs)`. -/
def joinSep (sep : List Char) : List (List Char) → List Char
  | [] => []
  | [x] => x
  | x :: y :: rest => x ++ sep ++ joinSep sep (y :: rest)

/-- Python `range(0, n, step)` for `step ≥ 1`. -/
def rangeStep (n step : Nat) : List Nat :=
  (List.range ((n + step - 1) / step)).map (fun k => k * step)

/-- The source's `_smart_lines`: split on punctuation/double-space; when that
yields fewer than three stripped nonempty segments, fall back to chunking the
whitespace-split word list in strides of `max 1 (len(words) // 3)` (returning
no lines at all when there are no words); cap at `max_lines`. -/
def smartLines (core : List Char) (max_lines : Nat) : List (List Char) :=
  let parts := ((splitSmart (pyStrip core)).map pyStrip).filter (fun p => !p.isEmpty)
  let parts :=
    if parts.length < 3 then
      let words := pySplitWS core
      if words.isEmpty then []
      else
        let step := max 1 (words.length / 3)
        (rangeStep words.length step).map (fun i => joinSep [' '] ((words.drop i).take step))
    else parts
  parts.take max_lines

/-- A `STYLE_PRESETS` entry (the dict key `"case"` is a Lean keyword, hence
`case_mode`; `"prefix"` is reserved, hence `preStr`). -/
structure StylePreset where
  case_mode : String
  preStr : List Char
  bullets : Bool
deriving DecidableEq, Repr

/-- The `STYLE_PRESETS` dict. -/
def STYLE_PRESETS : List (String × StylePreset) :=
  [("Big Bold Banner", ⟨"upper", chars "", false⟩),
   ("Fire Headline", ⟨"title", chars "🔥 ", false⟩),
   ("Minimal Stack", ⟨"title", chars "", false⟩),
   ("Debate Ticket", ⟨"title", chars "", true⟩),
   ("Sticker Bubble", ⟨"mixed", chars "🗯️ ", false⟩),
   ("Clean Serif", ⟨"sentence", chars "", false⟩),
   ("Neon Dark", ⟨"upper", chars "⚡ ", false⟩),
   ("Q&A Card", ⟨"title", chars "❓ ", false⟩),
   ("Impact Poster", ⟨"upper", chars "", false⟩),
   ("Magazine Deck", ⟨"sentence", chars "", false⟩),
   ("Ribbon Headline", ⟨"title", chars "🏷️ ", false⟩),
   ("Headline Stack", ⟨"title", chars "", false⟩)]

/-- The source's `format_prompt_for_style`, applied to a preset record.
Bullet presets: up to three smart lines, first as headline, `lines[1:3]` as
bulleted sub-lines — or the two fixed fallback strings when there is at most
one line.  Non-bullet presets: up to five case-transformed smart lines with
the prefix glued onto the first. -/
def format_prompt_for_style (text : List Char) (p : StylePreset) : List Char :=
  if p.bullets then
    let lines := smartLines text 3
    let headline :=
      match lines with
      | [] => toCase text p.case_mode
      | l0 :: _ => toCase l0 p.case_mode
    let subs :=
      if 1 < lines.length then (lines.drop 1).take 2
      else [chars "Share your view", chars "Bring one solution"]
    let subs := subs.map (fun s => chars "• " ++ s)
    headline ++ '\n' :: joinSep ['\n'] subs
  else
    let lines := smartLines text 5
    let lines :=
      if lines.isEmpty then [toCase text p.case_mode]
      else lines.map (fun l => toCase l p.case_mode)
    let lines :=
      match lines with
      | [] => []
      | l0 :: rest => if !p.preStr.isEmpty then (p.preStr ++ l0) :: rest else l0 :: rest
    joinSep ['\n'] lines


/-- Python substring membership `w in t`. -/
def containsSubstr (w t : List Char) : Bool :=
  (List.range (t.length + 1)).any (fun i => matchesAt w t i)

/-- The `CTA_WORDS` set. -/
def CTA_WORDS : List (List Char) :=
  [chars "share", chars "comment", chars "debate", chars "join", chars "drop",
   chars "vote", chars "duet", chars "stitch", chars "tag", chars "follow",
   chars "watch", chars "reply", chars "discuss", chars "weigh in", chars "sound off"]

/-- The `HOOK_WORDS` set. -/
def HOOK_WORDS : List (List Char) :=
  [chars "why", chars "what", chars "how", chars "truth", chars "myth",
   chars "secret", chars "real", chars "let’s", chars "is it", chars "can we",
   chars "would you", chars "should we"]

/-- Python `t.split("\n")`. -/
def splitNLAux : List Char → List Char → List (List Char)
  | acc, [] => [acc.reverse]
  | acc, c :: rest =>
    if c = '\n' then acc.reverse :: splitNLAux [] rest else splitNLAux (c :: acc) rest

/-- Python `t.split("\n")`. -/
def splitNL (t : List Char) : List (List Char) := splitNLAux [] t

/-- `len(l.split())`: the number of maximal non-whitespace runs. -/
def wsWordCount (l : List Char) : Nat :=
  (List.range l.length).countP (fun i =>
    !pyIsSpace (l.getD i ' ')
      && (decide (i = 0) || pyIsSpace (l.getD (i - 1) '.')))

/-- Length of the maximal run of ASCII uppercase letters starting at `i`. -/
def upperRun (t : List Char) (i : Nat) : Nat :=
  ((t.drop i).takeWhile Char.isUpper).length

/-- `len(re.findall(r"\b[A-Z]{3,}\b", t))`: maximal uppercase runs of length
at least three with word boundaries on both sides, counted by start index. -/
def capsWordCount (t : List Char) : Nat :=
  (List.range t.length).countP (fun i =>
    (t.getD i ' ').isUpper
      && (decide (i = 0) || !(isWordChar (t.getD (i - 1) ' ')))
      && decide (3 ≤ upperRun t i)
      && !(isWordChar (t.getD (i + upperRun t i) ' ')))

/-- The features `virality_rating` computes from the stripped text (plus the
toxicity/disruption inputs), before combining them into the score. -/
structure ViralityFeatures where
  has_q : Bool
  hook_hits : Nat
  cta_hits : Nat
  emoji_hits : Nat
  lines : Nat
  caps_words : Nat
  length : Nat
  avg_words_line : ℚ
  tox : Int
  dis : Int
deriving DecidableEq

/-- Feature extraction of `virality_rating` (lines 138-154): substring hit
counts over the lower-cased stripped text, emoji range count, line count,
ALL-CAPS word count, average words per line, and the toxicity/disruption
defaults recomputed by `analyze_text` when not passed in. -/
def viralityFeatures (text : List Char) (toxArg disArg : Option Int) : ViralityFeatures :=
  let t := pyStrip text
  let tl := lowerL t
  { has_q := t.contains '?'
    hook_hits := HOOK_WORDS.countP (fun w => containsSubstr w tl)
    cta_hits := CTA_WORDS.countP (fun w => containsSubstr w tl)
    emoji_hits := (t.filter (fun c => 0x1F300 ≤ c.toNat && c.toNat ≤ 0x1FAFF)).length
    lines := max 1 (t.count '\n' + 1)
    caps_words := capsWordCount t
    length := t.length
    avg_words_line :=
      (((splitNL t).map wsWordCount).sum : ℚ) / ((max 1 (t.count '\n' + 1) : Nat) : ℚ)
    tox := match toxArg with
           | some x => x
           | none => (analyze_text text).toxicity
    dis := match disArg with
           | some d => d
           | none => (analyze_text text).disruption }

/-- The score combination of `virality_rating` (lines 144-162): fixed bonuses
and penalties summed onto the base and clamped to `[0, 100]`.  All summands
are integers, so Python's `int(round(·))` is the identity; `tox // 2` is
floor division, which `Int` `/` (`ediv`) computes for the positive divisor. -/
def viralityScore (f : ViralityFeatures) : Int :=
  let caps_bonus : Int := min 3 (f.caps_words : Int) * 3
  let caps_penalty : Int := max 0 ((f.caps_words : Int) - 4) * 4
  let len_bonus : Int :=
    if f.length < 40 then -10
    else if f.length ≤ 240 then 12
    else if f.length ≤ 500 then 6
    else -8
  let clarity : Int := if f.avg_words_line ≤ 16 then 12 else if f.avg_words_line ≤ 22 then 6 else -6
  let spice : Int :=
    if 20 ≤ f.dis ∧ f.dis ≤ 60 then 10
    else if 60 < f.dis ∧ f.dis ≤ 80 then 4
    else if 80 < f.dis then -10
    else 0
  let tox_penalty : Int := -(min 30 (f.tox / 2))
  let line_bonus : Int := if 2 ≤ f.lines ∧ f.lines ≤ 5 then 6 else if f.lines = 1 then 0 else -4
  let emoji_bonus : Int := min 10 ((f.emoji_hits : Int) * 2)
  let base : Int := 40
  let score := base + (f.hook_hits : Int) * 4 + (if f.has_q then 8 else 0) +
    (f.cta_hits : Int) * 5 + len_bonus + clarity + spice + tox_penalty +
    line_bonus + emoji_bonus + caps_bonus - caps_penalty
  max 0 (min 100 score)

/-- The source's `virality_label`. -/
def virality_label (score : Int) : String :=
  if 80 ≤ score then "🔥 High" else if 60 ≤ score then "✨ Medium" else "🧊 Low"

/-- The source's `virality_rating`, reduced to the score and label (the
human-readable reason tags are presentation-only and not modelled). -/
def virality_rating (text : List Char) (toxArg disArg : Option Int) : Int × String :=
  let s := viralityScore (viralityFeatures text toxArg disArg)
  (s, virality_label s)


/-- The per-variant improvement deltas shown in the app body (lines 431-433). -/
structure ImprovementDelta where
  toxicity_reduction : Int
  disruption_reduction : Int
  positivity_increase : Int
deriving DecidableEq, Repr

/-- The delta computation of the app body (lines 431-433): `tox_drop`,
`dis_drop` and `pos_gain`, each floored at zero by `max(0, ·)`. -/
def improvementDelta (orig now : ScoreRecord) : ImprovementDelta :=
  ⟨max 0 (orig.toxicity - now.toxicity),
   max 0 (orig.disruption - now.disruption),
   max 0 (now.positivity - orig.positivity)⟩

/-- Length of a right strip never exceeds the original length. -/
theorem length_pyRStrip_le (l : List Char) : (pyRStrip l).length ≤ l.length := by
  simp only [pyRStrip, List.length_reverse]
  calc (l.reverse.dropWhile pyIsSpace).length
      ≤ l.reverse.length := (List.dropWhile_sublist _).length_le
    _ = l.length := List.length_reverse l

/-- A member of a list that fails the predicate survives `dropWhile`. -/
theorem mem_dropWhile_of_neg {p : Char → Bool} {l : List Char} {c : Char}
    (hc : c ∈ l) (hp : p c = false) : c ∈ l.dropWhile p := by
  have hc2 : c ∈ l.takeWhile p ++ l.dropWhile p := by
    rw [List.takeWhile_append_dropWhile]; exact hc
  rcases List.mem_append.mp hc2 with h | h
  · rw [List.mem_takeWhile_imp h] at hp; cases hp
  · exact h

/-- A non-whitespace member of a list survives `pyStrip`. -/
theorem mem_pyStrip_of_nonspace {b : List Char} {c : Char} (hc : c ∈ b)
    (hns : pyIsSpace c = false) : c ∈ pyStrip b := by
  have h1 : c ∈ pyLStrip b := mem_dropWhile_of_neg hc hns
  have h2 : c ∈ (pyLStrip b).reverse := List.mem_reverse.mpr h1
  have h3 : c ∈ (pyLStrip b).reverse.dropWhile pyIsSpace := mem_dropWhile_of_neg h2 hns
  exact List.mem_reverse.mpr h3

/-- `pyStrip` only removes characters. -/
theorem pyStrip_subset (l : List Char) : pyStrip l ⊆ l := by
  intro c hc
  simp only [pyStrip, pyRStrip, pyLStrip] at hc
  rw [List.mem_reverse] at hc
  have h1 := (List.dropWhile_sublist _).subset hc
  rw [List.mem_reverse] at h1
  exact (List.dropWhile_sublist _).subset h1

/-- C1: for every input string, `analyze_text` is total (it is a function) and
each of the three scores — toxicity, disruption, positivity — lies in
`[0, 100]`; in particular the capitalization-ratio division is guarded, so the
empty string, letter-free strings and all-punctuation strings are fine. -/
theorem claim_C1_analyze_bounds (t : List Char) :
    0 ≤ (analyze_text t).toxicity ∧ (analyze_text t).toxicity ≤ 100 ∧
    0 ≤ (analyze_text t).disruption ∧ (analyze_text t).disruption ≤ 100 ∧
    0 ≤ (analyze_text t).positivity ∧ (analyze_text t).positivity ≤ 100 := by
  rw [analyze_toxicity_eq, analyze_disruption_eq, analyze_positivity_eq]
  refine ⟨Int.natCast_nonneg _, ?_, Int.natCast_nonneg _, ?_, Int.natCast_nonneg _, ?_⟩
  · exact_mod_cast Nat.min_le_left 100 _
  · exact_mod_cast Nat.min_le_left 100 _
  · exact_mod_cast Nat.sub_le 100 _

/-- C2, counterexample: on `"shorten expand"` both cue sets match, yet the
planned target length is the shorten target `max(200, int(0.6*14)) = 200`,
not the expand target `int(1.5*14) = 21` the claim requires — the source's
`if`/`elif` checks the shorten cue first, so the shorten branch wins. -/
theorem claim_C2_counterexample :
    hasCue shortenCueWords (lowerL (chars "shorten expand")) = true ∧
    hasCue expandCueWords (lowerL (chars "shorten expand")) = true ∧
    targetLen (chars "shorten expand") = 200 ∧
    Int.toNat ⌊((chars "shorten expand").length : ℚ) * 1.5⌋ = 21 := by
  refine ⟨by decide, by decide, by rw [targetLen_eq]; decide, ?_⟩
  rw [floor_mul_1point5]
  decide

/-- C2, amended: when the lower-cased text contains both a whole-word shorten
cue and a whole-word expand cue, the *shorten* branch wins (it is checked
first; the expand check sits in an `elif`): the planned target length is
`max(200, int(0.6*len))`, and it always differs from the expand target
`int(1.5*len)`. -/
theorem claim_C2_shorten_wins (t : List Char)
    (hs : hasCue shortenCueWords (lowerL t) = true)
    (_he : hasCue expandCueWords (lowerL t) = true) :
    targetLen t = max 200 (Int.toNat ⌊(t.length : ℚ) * 0.6⌋) ∧
    targetLen t ≠ Int.toNat ⌊(t.length : ℚ) * 1.5⌋ := by
  rw [targetLen_eq, if_pos hs, floor_mul_point6, floor_mul_1point5]
  exact ⟨rfl, by omega⟩

/-- C2, witness for the amended theorem at `"shorten expand"`. -/
theorem claim_C2_shorten_wins_witness :
    targetLen (chars "shorten expand")
        = max 200 (Int.toNat ⌊((chars "shorten expand").length : ℚ) * 0.6⌋) ∧
    targetLen (chars "shorten expand")
        ≠ Int.toNat ⌊((chars "shorten expand").length : ℚ) * 1.5⌋ :=
  claim_C2_shorten_wins (chars "shorten expand") (by decide) (by decide)

/-- C3: after length enforcement a variant's text is at most the hard ceiling
`hardMax` (which is `int(target * (1.5 if expand-cue else 1.1)) + 40`), and a
candidate longer than the ceiling is exactly the ceiling-length prefix with
trailing whitespace stripped. -/
theorem claim_C3_enforce_ceiling (orig cand : List Char) :
    (enforceText (hardMax orig) cand).length ≤ hardMax orig ∧
    (hardMax orig < cand.length →
      enforceText (hardMax orig) cand = pyRStrip (cand.take (hardMax orig))) := by
  constructor
  · unfold enforceText
    split
    · calc (pyRStrip (cand.take (hardMax orig))).length
          ≤ (cand.take (hardMax orig)).length := length_pyRStrip_le _
        _ ≤ hardMax orig := by
            rw [List.length_take]
            omega
    · omega
  · intro h
    unfold enforceText
    rw [if_pos h]

/-- C3, witness: a 50-character candidate against the 42-character ceiling of
the cue-free original `"hi"`. -/
theorem claim_C3_enforce_ceiling_witness :
    (enforceText (hardMax (chars "hi")) (List.replicate 50 'a')).length ≤ hardMax (chars "hi") ∧
    enforceText (hardMax (chars "hi")) (List.replicate 50 'a') =
      pyRStrip ((List.replicate 50 'a').take (hardMax (chars "hi"))) :=
  ⟨(claim_C3_enforce_ceiling (chars "hi") (List.replicate 50 'a')).1,
   (claim_C3_enforce_ceiling (chars "hi") (List.replicate 50 'a')).2
     (by rw [hardMax_eq, targetLen_eq]; decide)⟩

/-- C4: when the lower-cased text contains the whole word `"shorten"`, the
planned target is `max(200, int(0.6 * len))`, and above the 200-character
floor this target is strictly below the input length. -/
theorem claim_C4_shorten_target (t : List Char)
    (h : wordPresent (chars "shorten") (lowerL t) = true) :
    targetLen t = max 200 (Int.toNat ⌊(t.length : ℚ) * 0.6⌋) ∧
    (200 < t.length → targetLen t < t.length) := by
  have hs : hasCue shortenCueWords (lowerL t) = true := by
    simp only [wordPresent, List.any_eq_true] at h
    obtain ⟨i, hi, hw⟩ := h
    simp only [hasCue, List.any_eq_true]
    exact ⟨i, hi, chars "shorten", by simp [shortenCueWords], hw⟩
  rw [targetLen_eq, if_pos hs, floor_mul_point6]
  exact ⟨rfl, by omega⟩

set_option maxRecDepth 4000 in
set_option maxHeartbeats 1000000 in
/-- C4, witness: a 208-character text starting with `"shorten "`. -/
theorem claim_C4_shorten_target_witness :
    targetLen (chars "shorten " ++ List.replicate 200 'a')
      < (chars "shorten " ++ List.replicate 200 'a').length :=
  (claim_C4_shorten_target (chars "shorten " ++ List.replicate 200 'a') (by decide)).2
    (by decide)

/-- C6: the virality score is monotonically non-decreasing in the
call-to-action hit count: two feature vectors that agree everywhere except
that one has at least as many CTA hits get scores in the same order,
clamping included. -/
theorem claim_C6_cta_monotone (f : ViralityFeatures) (c1 c2 : Nat) (h : c1 ≤ c2) :
    viralityScore { f with cta_hits := c1 } ≤ viralityScore { f with cta_hits := c2 } := by
  simp only [viralityScore]
  gcongr

/-- Feature record used by the C6 witness. -/
def exampleFeatures : ViralityFeatures := ⟨false, 0, 0, 0, 1, 0, 100, 3, 10, 30⟩

/-- C6, witness at a concrete feature record with 0 versus 3 CTA hits. -/
theorem claim_C6_cta_monotone_witness :
    viralityScore { exampleFeatures with cta_hits := 0 } ≤
      viralityScore { exampleFeatures with cta_hits := 3 } :=
  claim_C6_cta_monotone exampleFeatures 0 3 (by decide)

/-- C7: every improvement delta is floored at zero: it equals the difference
exactly when the change is an improvement and is zero otherwise, never a
negative value; in particular toxicity 80 → 30 reports a reduction of 50. -/
theorem claim_C7_deltas_floored :
    (∀ orig now : ScoreRecord,
      0 ≤ (improvementDelta orig now).toxicity_reduction ∧
      0 ≤ (improvementDelta orig now).disruption_reduction ∧
      0 ≤ (improvementDelta orig now).positivity_increase ∧
      (improvementDelta orig now).toxicity_reduction =
        (if now.toxicity ≤ orig.toxicity then orig.toxicity - now.toxicity else 0) ∧
      (improvementDelta orig now).disruption_reduction =
        (if now.disruption ≤ orig.disruption then orig.disruption - now.disruption else 0) ∧
      (improvementDelta orig now).positivity_increase =
        (if orig.positivity ≤ now.positivity then now.positivity - orig.positivity else 0)) ∧
    (improvementDelta ⟨80, 50, 20, 30⟩ ⟨30, 10, 70, 30⟩).toxicity_reduction = 50 := by
  constructor
  · intro orig now
    simp only [improvementDelta]
    refine ⟨le_max_left 0 _, le_max_left 0 _, le_max_left 0 _, ?_, ?_, ?_⟩ <;>
      (split <;> omega)
  · decide

/-- C9: on the concrete input `"Every influencer is fake!!!"` the toxicity is
strictly positive (three exclamation marks and the leading capital) and the
disruption is strictly positive (the `\bfake\b` hit and the `!!!` run). -/
theorem claim_C9_fake_example :
    0 < (analyze_text (chars "Every influencer is fake!!!")).toxicity ∧
    0 < (analyze_text (chars "Every influencer is fake!!!")).disruption := by
  refine ⟨?_, ?_⟩
  · rw [analyze_toxicity_eq]; decide
  · rw [analyze_disruption_eq]; decide

/-- C10: `generate_recodes` returns at most `max(n_variants, 4)` variants: the
returned count is exactly the minimum of the cap and the parsed count, and
parsed variants beyond the cap are dropped before length enforcement (the
result does not depend on them at all). -/
theorem claim_C10_variant_cap (original : List Char) (n_variants : Nat)
    (vs extra : List Variant) :
    (postVariants original n_variants vs).length = min (max n_variants 4) vs.length ∧
    (postVariants original n_variants vs).length ≤ max n_variants 4 ∧
    (max n_variants 4 ≤ vs.length →
      postVariants original n_variants (vs ++ extra) = postVariants original n_variants vs) := by
  refine ⟨?_, ?_, ?_⟩
  · simp only [postVariants, List.length_map, List.length_take]
  · simp only [postVariants, List.length_map, List.length_take]
    omega
  · intro h
    simp only [postVariants]
    rw [List.take_append_of_le_length h]

/-- C10, witness: five parsed variants against the cap `max 2 4 = 4`: the
fifth changes nothing. -/
theorem claim_C10_variant_cap_witness :
    postVariants (chars "x") 2
        ([⟨chars "a", chars "e", chars "ta"⟩, ⟨chars "b", chars "e", chars "tb"⟩,
          ⟨chars "c", chars "e", chars "tc"⟩, ⟨chars "d", chars "e", chars "td"⟩] ++
         [⟨chars "z", chars "e", chars "tz"⟩]) =
      postVariants (chars "x") 2
        [⟨chars "a", chars "e", chars "ta"⟩, ⟨chars "b", chars "e", chars "tb"⟩,
         ⟨chars "c", chars "e", chars "tc"⟩, ⟨chars "d", chars "e", chars "td"⟩] :=
  (claim_C10_variant_cap (chars "x") 2
    [⟨chars "a", chars "e", chars "ta"⟩, ⟨chars "b", chars "e", chars "tb"⟩,
     ⟨chars "c", chars "e", chars "tc"⟩, ⟨chars "d", chars "e", chars "td"⟩]
    [⟨chars "z", chars "e", chars "tz"⟩]).2.2 (by decide)

/-- A last-newline index is a valid index. -/
theorem lastNLIdx_lt {l : List Char} {j : Nat} (h : lastNLIdx l = some j) : j < l.length := by
  induction l generalizing j with
  | nil => simp [lastNLIdx] at h
  | cons c rest ih =>
    simp only [lastNLIdx] at h
    split at h
    · rename_i j0 hr
      simp only [Option.some.injEq] at h
      subst h
      have hlt := ih hr
      simp only [List.length_cons]
      omega
    · split at h
      · simp only [Option.some.injEq] at h
        subst h
        simp
      · cases h

/-- Members of a prefix that is contained in the `takeWhile` region satisfy
the predicate. -/
theorem mem_take_takeWhile {p : Char → Bool} {l : List Char} {k : Nat}
    (hk : k ≤ (l.takeWhile p).length) {c : Char} (hc : c ∈ l.take k) : p c = true := by
  have h1 : l.take k = (l.takeWhile p).take k := by
    conv_lhs => rw [← List.takeWhile_append_dropWhile p l]
    rw [List.take_append_of_le_length hk]
  rw [h1] at hc
  exact List.mem_takeWhile_imp (List.mem_of_mem_take hc)

/-- A successful separator match drops an index inside the whitespace run. -/
theorem sepTail_spec {rest tail : List Char} (h : sepTail rest = some tail) :
    ∃ j, j < (rest.takeWhile pyIsSpace).length ∧ tail = rest.drop (j + 1) := by
  simp only [sepTail] at h
  cases hr : lastNLIdx (rest.takeWhile pyIsSpace) with
  | some j =>
    rw [hr] at h
    simp only [Option.some.injEq] at h
    exact ⟨j, lastNLIdx_lt hr, h.symm⟩
  | none =>
    rw [hr] at h
    cases h

/-- A separator match only shrinks the remaining input. -/
theorem sepTail_length_le {rest tail : List Char} (h : sepTail rest = some tail) :
    tail.length ≤ rest.length := by
  obtain ⟨j, _, rfl⟩ := sepTail_spec h
  simp [List.length_drop]

/-- A separator match only removes whitespace characters. -/
theorem sepTail_nonspace_mem {rest tail : List Char} (h : sepTail rest = some tail)
    {c : Char} (hc : c ∈ rest) (hns : pyIsSpace c = false) : c ∈ tail := by
  obtain ⟨j, hj, rfl⟩ := sepTail_spec h
  have hsplit : c ∈ rest.take (j + 1) ++ rest.drop (j + 1) := by
    rw [List.take_append_drop]
    exact hc
  rcases List.mem_append.mp hsplit with h1 | h1
  · have hle : j + 1 ≤ (rest.takeWhile pyIsSpace).length := by omega
    rw [mem_take_takeWhile hle h1] at hns
    cases hns
  · exact h1

/-- Every non-whitespace character of the input (or of the pending
accumulator) ends up inside some block of the blank-line split: the
separators `\n\s*\n` consume only whitespace. -/
theorem splitBlocksAux_nonspace :
    ∀ (fuel : Nat) (acc l : List Char), l.length ≤ fuel →
      ∀ c : Char, (c ∈ acc ∨ c ∈ l) → pyIsSpace c = false →
        ∃ b ∈ splitBlocksAux fuel acc l, c ∈ b := by
  intro fuel
  induction fuel with
  | zero =>
    intro acc l _ c hc _
    refine ⟨acc.reverse ++ l, by simp [splitBlocksAux], ?_⟩
    rcases hc with h | h
    · exact List.mem_append.mpr (Or.inl (List.mem_reverse.mpr h))
    · exact List.mem_append.mpr (Or.inr h)
  | succ fuel ih =>
    intro acc l hl c hc hns
    cases l with
    | nil =>
      refine ⟨acc.reverse, by simp [splitBlocksAux], ?_⟩
      rcases hc with h | h
      · exact List.mem_reverse.mpr h
      · cases h
    | cons c0 rest =>
      simp only [splitBlocksAux]
      split
      · rename_i hc0
        cases hsep : sepTail rest with
        | some tail =>
          rcases hc with h | h
          · exact ⟨acc.reverse, by simp, List.mem_reverse.mpr h⟩
          · rcases List.mem_cons.mp h with rfl | h2
            · rw [hc0] at hns
              exact absurd hns (by decide)
            · have hct : c ∈ tail := sepTail_nonspace_mem hsep h2 hns
              have hlen : tail.length ≤ fuel := by
                have h3 := sepTail_length_le hsep
                simp only [List.length_cons] at hl
                omega
              obtain ⟨b, hb, hcb⟩ := ih [] tail hlen c (Or.inr hct) hns
              exact ⟨b, List.mem_cons_of_mem _ hb, hcb⟩
        | none =>
          apply ih (c0 :: acc) rest (by simp only [List.length_cons] at hl; omega) c ?_ hns
          rcases hc with h | h
          · exact Or.inl (List.mem_cons_of_mem _ h)
          · rcases List.mem_cons.mp h with rfl | h2
            · exact Or.inl (List.mem_cons_self _ _)
            · exact Or.inr h2
      · apply ih (c0 :: acc) rest (by simp only [List.length_cons] at hl; omega) c ?_ hns
        rcases hc with h | h
        · exact Or.inl (List.mem_cons_of_mem _ h)
        · rcases List.mem_cons.mp h with rfl | h2
          · exact Or.inl (List.mem_cons_self _ _)
          · exact Or.inr h2

/-- C5, counterexample: the whitespace-only malformed response `"\n \n"` (not
valid structured JSON) makes the fallback parser manufacture *no* variant at
all — every block of the blank-line split strips to nothing and is skipped —
refuting the claim that at least one variant is always produced. -/
theorem claim_C5_counterexample : fallbackParse (chars "\n \n") = [] := by decide

/-- C5, amended: whenever the raw response text contains at least one
non-whitespace character, the fallback line/paragraph parser manufactures at
least one variant (and, being a total function, it propagates no parse
failure to the caller); a whitespace-only response is the one exception and
yields an empty variant list. -/
theorem claim_C5_fallback_nonempty (content : List Char)
    (h : content.any (fun c => !pyIsSpace c) = true) :
    1 ≤ (fallbackParse content).length := by
  rw [List.any_eq_true] at h
  obtain ⟨c, hc, hns⟩ := h
  rw [Bool.not_eq_true'] at hns
  obtain ⟨b, hb, hcb⟩ :=
    splitBlocksAux_nonspace content.length [] content le_rfl c (Or.inr hc) hns
  have hstrip : ¬ pyStrip b = [] := by
    intro hnil
    have hmem := mem_pyStrip_of_nonspace hcb hns
    rw [hnil] at hmem
    cases hmem
  have hvar : (⟨(parseBlockStyleText (pyStrip b)).1,
      emojiLookup (parseBlockStyleText (pyStrip b)).1,
      (parseBlockStyleText (pyStrip b)).2⟩ : Variant) ∈ fallbackParse content := by
    simp only [fallbackParse, List.mem_filterMap]
    refine ⟨b, hb, ?_⟩
    rw [if_neg hstrip]
  have hpos := List.length_pos.mpr (List.ne_nil_of_mem hvar)
  omega

/-- C5, witness for the amended theorem at the malformed response `"hello"`. -/
theorem claim_C5_fallback_nonempty_witness :
    1 ≤ (fallbackParse (chars "hello")).length :=
  claim_C5_fallback_nonempty (chars "hello") (by decide)

/-- `Char.toUpper` maps no other character to a newline. -/
theorem toUpper_ne_nl {c : Char} (h : c ≠ '\n') : c.toUpper ≠ '\n' := by
  intro hu
  apply h
  unfold Char.toUpper at hu
  dsimp only [] at hu
  split at hu
  · rename_i hcond
    obtain ⟨h1, h2⟩ := hcond
    generalize hg : c.toNat = n at h1 h2 hu
    interval_cases n <;> exact absurd hu (by decide)
  · exact hu

/-- `Char.toLower` maps no other character to a newline. -/
theorem toLower_ne_nl {c : Char} (h : c ≠ '\n') : c.toLower ≠ '\n' := by
  intro hu
  apply h
  unfold Char.toLower at hu
  dsimp only [] at hu
  split at hu
  · rename_i hcond
    obtain ⟨h1, h2⟩ := hcond
    generalize hg : c.toNat = n at h1 h2 hu
    interval_cases n <;> exact absurd hu (by decide)
  · exact hu

/-- Characters of the smart-split segments come from the accumulator or the
remaining input: separators only drop characters. -/
theorem splitSmartAux_mem :
    ∀ (fuel : Nat) (acc l b : List Char), b ∈ splitSmartAux fuel acc l →
      ∀ c ∈ b, c ∈ acc ∨ c ∈ l := by
  intro fuel
  induction fuel with
  | zero =>
    intro acc l b hb c hc
    simp only [splitSmartAux, List.mem_singleton] at hb
    subst hb
    rcases List.mem_append.mp hc with h | h
    · exact Or.inl (List.mem_reverse.mp h)
    · exact Or.inr h
  | succ fuel ih =>
    intro acc l b hb c hc
    cases l with
    | nil =>
      simp only [splitSmartAux, List.mem_singleton] at hb
      subst hb
      exact Or.inl (List.mem_reverse.mp hc)
    | cons c0 rest =>
      simp only [splitSmartAux] at hb
      split at hb
      · rcases List.mem_cons.mp hb with rfl | hb2
        · exact Or.inl (List.mem_reverse.mp hc)
        · rcases ih [] (rest.dropWhile pyIsSpace) b hb2 c hc with h | h
          · cases h
          · exact Or.inr (List.mem_cons_of_mem _ ((List.dropWhile_sublist _).subset h))
      · rcases ih (c0 :: acc) rest b hb c hc with h | h
        · rcases List.mem_cons.mp h with rfl | h2
          · exact Or.inr (List.mem_cons_self _ _)
          · exact Or.inl h2
        · exact Or.inr (List.mem_cons_of_mem _ h)

/-- Characters of the whitespace-split words come from the accumulator or the
remaining input. -/
theorem pySplitWSAux_mem :
    ∀ (l acc w : List Char), w ∈ pySplitWSAux l acc → ∀ c ∈ w, c ∈ acc ∨ c ∈ l := by
  intro l
  induction l with
  | nil =>
    intro acc w hw c hc
    simp only [pySplitWSAux] at hw
    split at hw
    · cases hw
    · simp only [List.mem_singleton] at hw
      subst hw
      exact Or.inl (List.mem_reverse.mp hc)
  | cons c0 rest ih =>
    intro acc w hw c hc
    simp only [pySplitWSAux] at hw
    split at hw
    · split at hw
      · rcases ih [] w hw c hc with h | h
        · cases h
        · exact Or.inr (List.mem_cons_of_mem _ h)
      · rcases List.mem_cons.mp hw with rfl | hw2
        · exact Or.inl (List.mem_reverse.mp hc)
        · rcases ih [] w hw2 c hc with h | h
          · cases h
          · exact Or.inr (List.mem_cons_of_mem _ h)
    · rcases ih (c0 :: acc) w hw c hc with h | h
      · rcases List.mem_cons.mp h with rfl | h2
        · exact Or.inr (List.mem_cons_self _ _)
        · exact Or.inl h2
      · exact Or.inr (List.mem_cons_of_mem _ h)

/-- Characters of a joined list come from the separator or from a member. -/
theorem joinSep_mem {sep : List Char} :
    ∀ (xs : List (List Char)) (c : Char), c ∈ joinSep sep xs →
      c ∈ sep ∨ ∃ x ∈ xs, c ∈ x := by
  intro xs
  induction xs with
  | nil =>
    intro c hc
    simp [joinSep] at hc
  | cons x xs ih =>
    intro c hc
    cases xs with
    | nil =>
      simp only [joinSep] at hc
      exact Or.inr ⟨x, by simp, hc⟩
    | cons y rest =>
      simp only [joinSep] at hc
      rcases List.mem_append.mp hc with h | h
      · rcases List.mem_append.mp h with h2 | h2
        · exact Or.inr ⟨x, by simp, h2⟩
        · exact Or.inl h2
      · rcases ih c h with h2 | ⟨z, hz, hcz⟩
        · exact Or.inl h2
        · exact Or.inr ⟨z, List.mem_cons_of_mem _ hz, hcz⟩

/-- Joining newline-free lines with `"\n"` yields one newline fewer than the
number of lines. -/
theorem joinSep_count_nl :
    ∀ (xs : List (List Char)), (∀ x ∈ xs, x.count '\n' = 0) →
      (joinSep ['\n'] xs).count '\n' = xs.length - 1 := by
  intro xs
  induction xs with
  | nil =>
    intro
    simp [joinSep]
  | cons x xs ih =>
    intro hx
    cases xs with
    | nil =>
      simp only [joinSep, List.length_cons, List.length_nil]
      simpa using hx x (by simp)
    | cons y rest =>
      simp only [joinSep, List.count_append]
      rw [ih (fun z hz => hx z (List.mem_cons_of_mem _ hz))]
      rw [hx x (by simp)]
      simp only [List.length_cons]
      have hones : List.count '\n' ['\n'] = 1 := by decide
      omega

/-- Every character of a `smartLines` segment is a character of the input or
the space glued in by the word-chunking fallback. -/
theorem smartLines_mem_chars {core : List Char} {n : Nat} {p : List Char}
    (hp : p ∈ smartLines core n) {c : Char} (hc : c ∈ p) : c ∈ core ∨ c = ' ' := by
  simp only [smartLines] at hp
  have hp2 := List.mem_of_mem_take hp
  split at hp2
  · split at hp2
    · cases hp2
    · simp only [List.mem_map] at hp2
      obtain ⟨i, _, rfl⟩ := hp2
      rcases joinSep_mem _ c hc with h | ⟨x, hx, hcx⟩
      · right
        simpa using h
      · left
        have hxw : x ∈ pySplitWS core :=
          List.mem_of_mem_drop (List.mem_of_mem_take hx)
        rcases pySplitWSAux_mem core [] x hxw c hcx with h | h
        · cases h
        · exact h
  · rw [List.mem_filter] at hp2
    obtain ⟨hp3, _⟩ := hp2
    simp only [List.mem_map] at hp3
    obtain ⟨b, hb, rfl⟩ := hp3
    have hcb : c ∈ b := pyStrip_subset b hc
    rcases splitSmartAux_mem (pyStrip core).length [] (pyStrip core) b hb c hcb with h | h
    · cases h
    · left
      exact pyStrip_subset core h

/-- `pyTitleAux` introduces no newline. -/
theorem pyTitleAux_not_nl :
    ∀ (l : List Char) (flag : Bool), '\n' ∉ l → '\n' ∉ pyTitleAux flag l := by
  intro l
  induction l with
  | nil =>
    intro flag _ hm
    cases hm
  | cons c rest ih =>
    intro flag hnl hm
    have hc : c ≠ '\n' := fun hceq => hnl (hceq ▸ List.mem_cons_self _ _)
    have hrest : '\n' ∉ rest := fun hm2 => hnl (List.mem_cons_of_mem _ hm2)
    simp only [pyTitleAux] at hm
    split at hm
    · rcases List.mem_cons.mp hm with heq | hm2
      · split at heq
        · exact toLower_ne_nl hc heq.symm
        · exact toUpper_ne_nl hc heq.symm
      · exact ih true hrest hm2
    · rcases List.mem_cons.mp hm with heq | hm2
      · exact hc heq.symm
      · exact ih false hrest hm2

/-- `toCase` introduces no newline. -/
theorem toCase_not_nl {l : List Char} (h : '\n' ∉ l) (mode : String) :
    '\n' ∉ toCase l mode := by
  unfold toCase
  split
  · intro hmem
    simp only [List.mem_map] at hmem
    obtain ⟨c, hcl, hcu⟩ := hmem
    exact toUpper_ne_nl (fun hceq => h (hceq ▸ hcl)) hcu
  · split
    · exact pyTitleAux_not_nl l false h
    · split
      · cases hs : pyStrip l with
        | nil =>
          intro hm
          simp at hm
        | cons c rest =>
          intro hm
          have hc : c ≠ '\n' := by
            intro hceq
            apply h
            apply pyStrip_subset l
            rw [hs, hceq]
            exact List.mem_cons_self _ _
          rcases List.mem_cons.mp hm with heq | hm2
          · exact toUpper_ne_nl hc heq.symm
          · apply h
            apply pyStrip_subset l
            rw [hs]
            exact List.mem_cons_of_mem _ hm2
      · exact h

/-- The bullets branch of `format_prompt_for_style`, written without lets. -/
theorem format_bullets_eq (text : List Char) (p : StylePreset) (hb : p.bullets = true) :
    format_prompt_for_style text p =
      (match smartLines text 3 with
       | [] => toCase text p.case_mode
       | l0 :: _ => toCase l0 p.case_mode) ++ '\n' ::
      joinSep ['\n'] ((if 1 < (smartLines text 3).length
        then ((smartLines text 3).drop 1).take 2
        else [chars "Share your view", chars "Bring one solution"]).map
          (fun s => chars "• " ++ s)) := by
  unfold format_prompt_for_style
  rw [if_pos hb]

/-- C8, counterexample: on the input `"a. b\nc. d. e"` (which contains a
newline) the bullet-preset output is `"A\n• b\nc\n• d"` — four physical
lines, because a splitter segment may itself contain a newline — refuting
"never has more than 3 lines total" as a universal statement. -/
theorem claim_C8_counterexample :
    (format_prompt_for_style (chars "a. b\nc. d. e") ⟨"title", chars "", true⟩).count '\n' + 1
      = 4 := by decide

/-- C8, amended: for input text containing no newline character, a
bullet-style preset yields a headline plus at most two bulleted sub-lines —
never more than 3 physical lines — and when the splitter yields at most one
segment the sub-lines are exactly the two fixed fallback strings; moreover on
`"The gym is a scam"` with the Debate Ticket preset the output is exactly the
3-line `"The\n• gym\n• is"`.  (With embedded newlines the physical line count
can exceed 3, as the counterexample shows.) -/
theorem claim_C8_bullets :
    (∀ (text : List Char) (p : StylePreset), p.bullets = true → '\n' ∉ text →
      (format_prompt_for_style text p).count '\n' + 1 ≤ 3 ∧
      ((smartLines text 3).length ≤ 1 →
        format_prompt_for_style text p =
          (match smartLines text 3 with
           | [] => toCase text p.case_mode
           | l0 :: _ => toCase l0 p.case_mode) ++ '\n' ::
            joinSep ['\n'] [chars "• " ++ chars "Share your view",
                            chars "• " ++ chars "Bring one solution"])) ∧
    format_prompt_for_style (chars "The gym is a scam") ⟨"title", chars "", true⟩ =
      chars "The\n• gym\n• is" := by
  constructor
  · intro text p hb hnl
    have hbase : ∀ s ∈ (if 1 < (smartLines text 3).length
        then ((smartLines text 3).drop 1).take 2
        else [chars "Share your view", chars "Bring one solution"]), s.count '\n' = 0 := by
      intro s hs
      split at hs
      · have hsl : s ∈ smartLines text 3 :=
          List.mem_of_mem_drop (List.mem_of_mem_take hs)
        rw [List.count_eq_zero]
        intro hmem
        rcases smartLines_mem_chars hsl hmem with h | h
        · exact hnl h
        · cases h
      · simp only [List.mem_cons, List.mem_singleton] at hs
        rcases hs with rfl | rfl | h
        · decide
        · decide
        · cases h
    have hsubs : ∀ s ∈ (if 1 < (smartLines text 3).length
        then ((smartLines text 3).drop 1).take 2
        else [chars "Share your view", chars "Bring one solution"]).map
          (fun s => chars "• " ++ s), s.count '\n' = 0 := by
      intro s hs
      simp only [List.mem_map] at hs
      obtain ⟨x, hx, rfl⟩ := hs
      rw [List.count_append, hbase x hx]
      decide
    have hhead : (match smartLines text 3 with
        | [] => toCase text p.case_mode
        | l0 :: _ => toCase l0 p.case_mode).count '\n' = 0 := by
      cases hsm : smartLines text 3 with
      | nil =>
        rw [List.count_eq_zero]
        exact toCase_not_nl hnl p.case_mode
      | cons l0 ls =>
        rw [List.count_eq_zero]
        apply toCase_not_nl
        intro hmem
        have hl0 : l0 ∈ smartLines text 3 := by
          rw [hsm]
          exact List.mem_cons_self _ _
        rcases smartLines_mem_chars hl0 hmem with h | h
        · exact hnl h
        · cases h
    have hlen : (if 1 < (smartLines text 3).length
        then ((smartLines text 3).drop 1).take 2
        else [chars "Share your view", chars "Bring one solution"]).length ≤ 2 := by
      split
      · rw [List.length_take]
        omega
      · decide
    constructor
    · rw [format_bullets_eq text p hb, List.count_append, hhead]
      simp only [List.count_cons]
      rw [joinSep_count_nl _ hsubs]
      rw [List.length_map]
      simp only [beq_self_eq_true, if_pos]
      omega
    · intro hle
      rw [format_bullets_eq text p hb, if_neg (by omega)]
      rfl
  · decide

/-- C8, witness for the amended theorem at the newline-free input `"hello"`,
whose splitter yields a single segment, so the fallback sub-lines fire. -/
theorem claim_C8_bullets_witness :
    (format_prompt_for_style (chars "hello") ⟨"title", chars "", true⟩).count '\n' + 1 ≤ 3 ∧
    format_prompt_for_style (chars "hello") ⟨"title", chars "", true⟩ =
      (match smartLines (chars "hello") 3 with
       | [] => toCase (chars "hello") "title"
       | l0 :: _ => toCase l0 "title") ++ '\n' ::
        joinSep ['\n'] [chars "• " ++ chars "Share your view",
                        chars "• " ++ chars "Bring one solution"] :=
  ⟨(claim_C8_bullets.1 (chars "hello") ⟨"title", chars "", true⟩ (by decide) (by decide)).1,
   (claim_C8_bullets.1 (chars "hello") ⟨"title", chars "", true⟩ (by decide) (by decide)).2
     (by decide)⟩
